import Mathlib

/-!
Verification of the iso7816 command/response layer.

The status-word module (`src/response/status.rs`) is embedded directly from
the source.  The command serializer / chaining engine, the zero-copy parser
and the reassembly accumulator are not present in the sources available
here (only their fuzz-test caller is), so they are modelled from the
specification (sections 3, 4.2 - 4.4 and 6 of the design document); those
definitions carry a `Modelled from the spec:` doc comment.

Bytes are Nats (< 256 where it matters), 16-bit words are Nats (< 65536);
Rust's `Result` is `Except`, a panicking conversion is an `Option`.
-/

set_option maxRecDepth 8000

namespace Iso7816

/-- Embeds `enum Status` from `src/response/status.rs`.  Rust payloads are
`u8`; here they are `Nat` and the relevant theorems carry the `< 256`
(resp. `< 16`) bounds explicitly. -/
inductive Status where
  | Success
  | MoreAvailable (x : Nat)
  | VerificationFailed
  | RemainingRetries (x : Nat)
  | UnspecifiedNonpersistentExecutionError
  | UnspecifiedPersistentExecutionError
  | WrongLength
  | LogicalChannelNotSupported
  | SecureMessagingNotSupported
  | CommandChainingNotSupported
  | SecurityStatusNotSatisfied
  | ConditionsOfUseNotSatisfied
  | OperationBlocked
  | IncorrectDataParameter
  | FunctionNotSupported
  | NotFound
  | NotEnoughMemory
  | IncorrectP1OrP2Parameter
  | KeyReferenceNotFound
  | InstructionNotSupportedOrInvalid
  | ClassNotSupported
  | UnspecifiedCheckingError
  deriving DecidableEq, Repr

deriving instance DecidableEq for Except

/-- The match on `u16::from_be_bytes([sw1, sw2])` inside
`TryFrom<(u8, u8)> for Status`, as a function of the 16-bit word.
`(sw as u8) & 0xf` is `w % 256 % 16`. -/
def statusTryFromWord (w : Nat) : Except Nat Status :=
  if w = 0x6300 then .ok .VerificationFailed
  else if 0x63c0 ≤ w ∧ w ≤ 0x63cf then .ok (.RemainingRetries (w % 256 % 16))
  else if w = 0x6400 then .ok .UnspecifiedNonpersistentExecutionError
  else if w = 0x6500 then .ok .UnspecifiedPersistentExecutionError
  else if w = 0x6700 then .ok .WrongLength
  else if w = 0x6881 then .ok .LogicalChannelNotSupported
  else if w = 0x6882 then .ok .SecureMessagingNotSupported
  else if w = 0x6884 then .ok .CommandChainingNotSupported
  else if w = 0x6982 then .ok .SecurityStatusNotSatisfied
  else if w = 0x6985 then .ok .ConditionsOfUseNotSatisfied
  else if w = 0x6983 then .ok .OperationBlocked
  else if w = 0x6a80 then .ok .IncorrectDataParameter
  else if w = 0x6a81 then .ok .FunctionNotSupported
  else if w = 0x6a82 then .ok .NotFound
  else if w = 0x6a84 then .ok .NotEnoughMemory
  else if w = 0x6a86 then .ok .IncorrectP1OrP2Parameter
  else if w = 0x6a88 then .ok .KeyReferenceNotFound
  else if w = 0x6d00 then .ok .InstructionNotSupportedOrInvalid
  else if w = 0x6e00 then .ok .ClassNotSupported
  else if w = 0x6f00 then .ok .UnspecifiedCheckingError
  else if w = 0x9000 then .ok .Success
  else if 0x6100 ≤ w ∧ w ≤ 0x61ff then .ok (.MoreAvailable (w % 256))
  else .error w

/-- Embeds `TryFrom<(u8, u8)> for Status::try_from`. -/
def statusTryFrom (sw1 sw2 : Nat) : Except Nat Status :=
  statusTryFromWord (sw1 * 256 + sw2)

/-- Embeds `From<Status> for u16`.  The `assert!(x < 16)` in the
`RemainingRetries` arm panics for `x >= 16`; the panic is modelled as
`none`.  `u16::from_be_bytes([0x63, 0xc0 + x])` is `0x6300 + (0xc0 + x)`. -/
def statusToU16 (s : Status) : Option Nat :=
  match s with
  | .VerificationFailed => some 0x6300
  | .RemainingRetries x => if x < 16 then some (0x6300 + (0xc0 + x)) else none
  | .UnspecifiedNonpersistentExecutionError => some 0x6400
  | .UnspecifiedPersistentExecutionError => some 0x6500
  | .WrongLength => some 0x6700
  | .LogicalChannelNotSupported => some 0x6881
  | .SecureMessagingNotSupported => some 0x6882
  | .CommandChainingNotSupported => some 0x6884
  | .SecurityStatusNotSatisfied => some 0x6982
  | .ConditionsOfUseNotSatisfied => some 0x6985
  | .OperationBlocked => some 0x6983
  | .IncorrectDataParameter => some 0x6a80
  | .FunctionNotSupported => some 0x6a81
  | .NotFound => some 0x6a82
  | .NotEnoughMemory => some 0x6a84
  | .IncorrectP1OrP2Parameter => some 0x6a86
  | .KeyReferenceNotFound => some 0x6a88
  | .InstructionNotSupportedOrInvalid => some 0x6d00
  | .ClassNotSupported => some 0x6e00
  | .UnspecifiedCheckingError => some 0x6f00
  | .Success => some 0x9000
  | .MoreAvailable x => some (0x6100 + x)

/-- A `Status` value whose payload is inside the range the Rust `u8`
payload (and, for retries, the `assert!`) allows. -/
def statusPayloadInRange : Status → Prop
  | .RemainingRetries x => x < 16
  | .MoreAvailable x => x < 256
  | _ => True

/-- C6: the status-word mapping round-trips in both directions.  Every word
that `try_from` maps to `Ok s` is recovered exactly by `From<Status> for
u16`, and every `Status` value with an in-range payload converts to a word
that parses back to the same value. -/
theorem status_roundtrip :
    (∀ sw1, sw1 < 256 → ∀ sw2, sw2 < 256 → ∀ s,
        statusTryFrom sw1 sw2 = .ok s → statusToU16 s = some (sw1 * 256 + sw2)) ∧
    (∀ s, statusPayloadInRange s →
        ∃ w, statusToU16 s = some w ∧ statusTryFrom (w / 256) (w % 256) = .ok s) := by
  constructor
  · intro sw1 h1 sw2 h2 s hs
    unfold statusTryFrom statusTryFromWord at hs
    set w := sw1 * 256 + sw2 with hw
    by_cases c1 : w = 0x6300
    · rw [if_pos c1] at hs; injection hs with h; subst h
      simp only [statusToU16, Option.some.injEq]; omega
    rw [if_neg c1] at hs
    by_cases c2 : 0x63c0 ≤ w ∧ w ≤ 0x63cf
    · rw [if_pos c2] at hs; injection hs with h; subst h
      simp only [statusToU16]
      rw [if_pos (by omega : w % 256 % 16 < 16)]
      simp only [Option.some.injEq]; omega
    rw [if_neg c2] at hs
    by_cases c3 : w = 0x6400
    · rw [if_pos c3] at hs; injection hs with h; subst h
      simp only [statusToU16, Option.some.injEq]; omega
    rw [if_neg c3] at hs
    by_cases c4 : w = 0x6500
    · rw [if_pos c4] at hs; injection hs with h; subst h
      simp only [statusToU16, Option.some.injEq]; omega
    rw [if_neg c4] at hs
    by_cases c5 : w = 0x6700
    · rw [if_pos c5] at hs; injection hs with h; subst h
      simp only [statusToU16, Option.some.injEq]; omega
    rw [if_neg c5] at hs
    by_cases c6 : w = 0x6881
    · rw [if_pos c6] at hs; injection hs with h; subst h
      simp only [statusToU16, Option.some.injEq]; omega
    rw [if_neg c6] at hs
    by_cases c7 : w = 0x6882
    · rw [if_pos c7] at hs; injection hs with h; subst h
      simp only [statusToU16, Option.some.injEq]; omega
    rw [if_neg c7] at hs
    by_cases c8 : w = 0x6884
    · rw [if_pos c8] at hs; injection hs with h; subst h
      simp only [statusToU16, Option.some.injEq]; omega
    rw [if_neg c8] at hs
    by_cases c9 : w = 0x6982
    · rw [if_pos c9] at hs; injection hs with h; subst h
      simp only [statusToU16, Option.some.injEq]; omega
    rw [if_neg c9] at hs
    by_cases c10 : w = 0x6985
    · rw [if_pos c10] at hs; injection hs with h; subst h
      simp only [statusToU16, Option.some.injEq]; omega
    rw [if_neg c10] at hs
    by_cases c11 : w = 0x6983
    · rw [if_pos c11] at hs; injection hs with h; subst h
      simp only [statusToU16, Option.some.injEq]; omega
    rw [if_neg c11] at hs
    by_cases c12 : w = 0x6a80
    · rw [if_pos c12] at hs; injection hs with h; subst h
      simp only [statusToU16, Option.some.injEq]; omega
    rw [if_neg c12] at hs
    by_cases c13 : w = 0x6a81
    · rw [if_pos c13] at hs; injection hs with h; subst h
      simp only [statusToU16, Option.some.injEq]; omega
    rw [if_neg c13] at hs
    by_cases c14 : w = 0x6a82
    · rw [if_pos c14] at hs; injection hs with h; subst h
      simp only [statusToU16, Option.some.injEq]; omega
    rw [if_neg c14] at hs
    by_cases c15 : w = 0x6a84
    · rw [if_pos c15] at hs; injection hs with h; subst h
      simp only [statusToU16, Option.some.injEq]; omega
    rw [if_neg c15] at hs
    by_cases c16 : w = 0x6a86
    · rw [if_pos c16] at hs; injection hs with h; subst h
      simp only [statusToU16, Option.some.injEq]; omega
    rw [if_neg c16] at hs
    by_cases c17 : w = 0x6a88
    · rw [if_pos c17] at hs; injection hs with h; subst h
      simp only [statusToU16, Option.some.injEq]; omega
    rw [if_neg c17] at hs
    by_cases c18 : w = 0x6d00
    · rw [if_pos c18] at hs; injection hs with h; subst h
      simp only [statusToU16, Option.some.injEq]; omega
    rw [if_neg c18] at hs
    by_cases c19 : w = 0x6e00
    · rw [if_pos c19] at hs; injection hs with h; subst h
      simp only [statusToU16, Option.some.injEq]; omega
    rw [if_neg c19] at hs
    by_cases c20 : w = 0x6f00
    · rw [if_pos c20] at hs; injection hs with h; subst h
      simp only [statusToU16, Option.some.injEq]; omega
    rw [if_neg c20] at hs
    by_cases c21 : w = 0x9000
    · rw [if_pos c21] at hs; injection hs with h; subst h
      simp only [statusToU16, Option.some.injEq]; omega
    rw [if_neg c21] at hs
    by_cases c22 : 0x6100 ≤ w ∧ w ≤ 0x61ff
    · rw [if_pos c22] at hs; injection hs with h; subst h
      simp only [statusToU16, Option.some.injEq]; omega
    rw [if_neg c22] at hs
    exact Except.noConfusion hs
  · intro s hs
    cases s <;> simp only [statusPayloadInRange] at hs <;>
      first
        | exact ⟨_, rfl, by decide⟩
        | skip
    case RemainingRetries x =>
      interval_cases x <;> exact ⟨_, rfl, by decide⟩
    case MoreAvailable x =>
      interval_cases x <;> exact ⟨_, rfl, by decide⟩

/-- C6 witness: concrete instances of both directions: `0x9000` maps to
`Success` and back, and `RemainingRetries 3` round-trips through its word. -/
theorem status_roundtrip_witness :
    statusToU16 .Success = some (0x90 * 256 + 0x00) ∧
    ∃ w, statusToU16 (.RemainingRetries 3) = some w ∧
      statusTryFrom (w / 256) (w % 256) = .ok (.RemainingRetries 3) :=
  ⟨status_roundtrip.1 0x90 (by decide) 0x00 (by decide) .Success (by decide),
   status_roundtrip.2 (.RemainingRetries 3) (by show (3 : Nat) < 16; decide)⟩

/-- C7: a byte pair whose 16-bit value is mapped to no enumeration variant
is returned as an opaque numeric error carrying exactly that value. -/
theorem status_unmapped_opaque (sw1 sw2 : Nat) (h1 : sw1 < 256) (h2 : sw2 < 256)
    (hunmapped : ∀ s, statusTryFrom sw1 sw2 ≠ .ok s) :
    statusTryFrom sw1 sw2 = .error (sw1 * 256 + sw2) := by
  unfold statusTryFrom statusTryFromWord at hunmapped ⊢
  set w := sw1 * 256 + sw2 with hw
  by_cases c1 : w = 0x6300
  · exact absurd (if_pos c1) (hunmapped _)
  simp only [if_neg c1] at hunmapped ⊢
  by_cases c2 : 0x63c0 ≤ w ∧ w ≤ 0x63cf
  · exact absurd (if_pos c2) (hunmapped _)
  simp only [if_neg c2] at hunmapped ⊢
  by_cases c3 : w = 0x6400
  · exact absurd (if_pos c3) (hunmapped _)
  simp only [if_neg c3] at hunmapped ⊢
  by_cases c4 : w = 0x6500
  · exact absurd (if_pos c4) (hunmapped _)
  simp only [if_neg c4] at hunmapped ⊢
  by_cases c5 : w = 0x6700
  · exact absurd (if_pos c5) (hunmapped _)
  simp only [if_neg c5] at hunmapped ⊢
  by_cases c6 : w = 0x6881
  · exact absurd (if_pos c6) (hunmapped _)
  simp only [if_neg c6] at hunmapped ⊢
  by_cases c7 : w = 0x6882
  · exact absurd (if_pos c7) (hunmapped _)
  simp only [if_neg c7] at hunmapped ⊢
  by_cases c8 : w = 0x6884
  · exact absurd (if_pos c8) (hunmapped _)
  simp only [if_neg c8] at hunmapped ⊢
  by_cases c9 : w = 0x6982
  · exact absurd (if_pos c9) (hunmapped _)
  simp only [if_neg c9] at hunmapped ⊢
  by_cases c10 : w = 0x6985
  · exact absurd (if_pos c10) (hunmapped _)
  simp only [if_neg c10] at hunmapped ⊢
  by_cases c11 : w = 0x6983
  · exact absurd (if_pos c11) (hunmapped _)
  simp only [if_neg c11] at hunmapped ⊢
  by_cases c12 : w = 0x6a80
  · exact absurd (if_pos c12) (hunmapped _)
  simp only [if_neg c12] at hunmapped ⊢
  by_cases c13 : w = 0x6a81
  · exact absurd (if_pos c13) (hunmapped _)
  simp only [if_neg c13] at hunmapped ⊢
  by_cases c14 : w = 0x6a82
  · exact absurd (if_pos c14) (hunmapped _)
  simp only [if_neg c14] at hunmapped ⊢
  by_cases c15 : w = 0x6a84
  · exact absurd (if_pos c15) (hunmapped _)
  simp only [if_neg c15] at hunmapped ⊢
  by_cases c16 : w = 0x6a86
  · exact absurd (if_pos c16) (hunmapped _)
  simp only [if_neg c16] at hunmapped ⊢
  by_cases c17 : w = 0x6a88
  · exact absurd (if_pos c17) (hunmapped _)
  simp only [if_neg c17] at hunmapped ⊢
  by_cases c18 : w = 0x6d00
  · exact absurd (if_pos c18) (hunmapped _)
  simp only [if_neg c18] at hunmapped ⊢
  by_cases c19 : w = 0x6e00
  · exact absurd (if_pos c19) (hunmapped _)
  simp only [if_neg c19] at hunmapped ⊢
  by_cases c20 : w = 0x6f00
  · exact absurd (if_pos c20) (hunmapped _)
  simp only [if_neg c20] at hunmapped ⊢
  by_cases c21 : w = 0x9000
  · exact absurd (if_pos c21) (hunmapped _)
  simp only [if_neg c21] at hunmapped ⊢
  by_cases c22 : 0x6100 ≤ w ∧ w ≤ 0x61ff
  · exact absurd (if_pos c22) (hunmapped _)
  simp only [if_neg c22] at hunmapped ⊢

/-- C7 witness: `0x1234` is unmapped and comes back as `Err 0x1234`. -/
theorem status_unmapped_opaque_witness :
    statusTryFrom 0x12 0x34 = .error (0x12 * 256 + 0x34) :=
  status_unmapped_opaque 0x12 0x34 (by decide) (by decide)
    (by
      intro s hs
      have h : statusTryFrom 0x12 0x34 = .error 0x1234 := by decide
      rw [h] at hs
      exact Except.noConfusion hs)

/-- C8: `try_from` maps `0x9000` to `Success`, all of `0x61xx` to
`MoreAvailable sw2`, and all of `0x63C0..0x63CF` to `RemainingRetries` of
the low nibble. -/
theorem status_mapped_ranges :
    statusTryFrom 0x90 0x00 = .ok .Success ∧
    (∀ sw2, sw2 < 256 → statusTryFrom 0x61 sw2 = .ok (.MoreAvailable sw2)) ∧
    (∀ n, n < 16 → statusTryFrom 0x63 (0xc0 + n) = .ok (.RemainingRetries n)) :=
  ⟨by decide, by decide, by decide⟩

/-- C8 witness: concrete points of the two ranges. -/
theorem status_mapped_ranges_witness :
    statusTryFrom 0x61 0x7f = .ok (.MoreAvailable 0x7f) ∧
    statusTryFrom 0x63 (0xc0 + 5) = .ok (.RemainingRetries 5) :=
  ⟨status_mapped_ranges.2.1 0x7f (by decide),
   status_mapped_ranges.2.2 5 (by decide)⟩

/-- C9: `From<Status> for u16` asserts `x < 16` in the `RemainingRetries`
arm (modelled: `none` = panic) and is total everywhere else; under the
precondition it yields `0x63C0 + x`. -/
theorem status_retries_assert :
    (∀ x, 16 ≤ x → statusToU16 (.RemainingRetries x) = none) ∧
    (∀ x, x < 16 → statusToU16 (.RemainingRetries x) = some (0x63c0 + x)) ∧
    (∀ s, (∀ x, s ≠ .RemainingRetries x) → (statusToU16 s).isSome = true) := by
  refine ⟨?_, ?_, ?_⟩
  · intro x hx
    simp only [statusToU16]
    rw [if_neg (by omega)]
  · intro x hx
    simp only [statusToU16]
    rw [if_pos hx]
    simp only [Option.some.injEq]
    omega
  · intro s hs
    cases s <;> simp [statusToU16]
    exact absurd rfl (hs _)

/-- C9 witness: the assertion fires at 16, the conversion is defined at 3,
and `Success` converts without any assertion. -/
theorem status_retries_assert_witness :
    statusToU16 (.RemainingRetries 16) = none ∧
    statusToU16 (.RemainingRetries 3) = some (0x63c0 + 3) ∧
    (statusToU16 .Success).isSome = true :=
  ⟨status_retries_assert.1 16 (by decide),
   status_retries_assert.2.1 3 (by decide),
   status_retries_assert.2.2 .Success (by intro x h; exact Status.noConfusion h)⟩

/-- C10: the exact word `0x6300` maps to `VerificationFailed`, and every
other `0x63xx` outside `0x63C0..0x63CF` is an unmapped opaque error. -/
theorem status_6300_mapped :
    statusTryFrom 0x63 0 = .ok .VerificationFailed ∧
    (∀ sw2, sw2 < 256 → sw2 ≠ 0 → ¬(0xc0 ≤ sw2 ∧ sw2 ≤ 0xcf) →
      statusTryFrom 0x63 sw2 = .error (0x6300 + sw2)) :=
  ⟨by decide, by decide⟩

/-- C10 witness: `0x6377` is outside both mapped regions and is unmapped. -/
theorem status_6300_mapped_witness :
    statusTryFrom 0x63 0x77 = .error (0x6300 + 0x77) :=
  status_6300_mapped.2 0x77 (by decide) (by decide) (by decide)

/-!
## The command layer

The serializer / chaining engine, the zero-copy parser (`CommandView`) and
the reassembly accumulator live in `src/command/` of the repository, which
is not among the sources available here; only their fuzz-test caller is.
The definitions below are therefore modelled from the specification.
Bytes are `Nat`s; a writer is modelled by the capacity it reports through
`remaining_len`, and a run of the resumable serializer is driven by the
list of capacities of the successive writers handed to `serialize` /
`Continuation::serialize` (each call emits at most one physical unit, as
observed by the fuzz harness, which parses every buffer produced between
two continuations as one complete unit).
-/

/-- Modelled from the spec: `LogicalCommand` (§3): class, instruction, P1,
P2, payload bytes, expected-response length.  The chaining bit (bit 4 of
the class byte, mask `0x10`) is never set by the caller; theorems about
serialization carry that invariant as the hypothesis `cla &&& 16 = 0`. -/
structure LogicalCommand where
  cla : Nat
  ins : Nat
  p1 : Nat
  p2 : Nat
  data : List Nat
  le : Nat
  deriving DecidableEq, Repr

/-- Modelled from the spec: the parser's `View` (§4.3): header fields,
payload slice, expected-response length, the `extended()` flag and the
chaining bit of the class byte. -/
structure CommandView where
  cla : Nat
  ins : Nat
  p1 : Nat
  p2 : Nat
  data : List Nat
  le : Nat
  extended : Bool
  chained : Bool
  deriving DecidableEq, Repr

/-- Short Le decoding (§6): one byte, `0x00` encodes 256. -/
def decodeShortLe (b : Nat) : Nat := if b = 0 then 256 else b

/-- Extended Le decoding (§6): two bytes big-endian, `0x0000` encodes
65536. -/
def decodeLongLe (e1 e2 : Nat) : Nat :=
  if e1 = 0 ∧ e2 = 0 then 65536 else e1 * 256 + e2

/-- Modelled from the spec: body of one physical unit after the 4-byte
header (§4.3, §6).  Returns payload, expected-response length and the
`extended` flag, or `none` on a malformed body (declared lengths that
disagree with the remaining byte count).  An empty body means no payload
and no Le; a single byte is a short Le; a leading `0x00` with at least two
more bytes signals the extended form (3 bytes alone are an extended Le
without Lc, otherwise an extended Lc followed by the payload and an
optional 2-byte extended Le); any other leading byte is a short Lc
followed by the payload and an optional 1-byte short Le. -/
def parseBody (body : List Nat) : Option (List Nat × Nat × Bool) :=
  if body.length = 0 then some ([], 0, false)
  else if body.length = 1 then some ([], decodeShortLe (body.headD 0), false)
  else if body.headD 0 = 0 then
    if body.length = 3 then
      some ([], decodeLongLe (body.getD 1 0) (body.getD 2 0), true)
    else
      let L := body.getD 1 0 * 256 + body.getD 2 0
      let rest := body.drop 3
      if L = 0 then none
      else if rest.length = L then some (rest, 0, true)
      else
        match rest.drop L with
        | [e1, e2] => some (rest.take L, decodeLongLe e1 e2, true)
        | _ => none
  else
    let lc := body.headD 0
    let rest := body.drop 1
    if rest.length = lc then some (rest, 0, false)
    else
      match rest.drop lc with
      | [e] => some (rest.take lc, decodeShortLe e, false)
      | _ => none

/-- Modelled from the spec: `parse` / `CommandView::try_from` (§4.3):
split off the 4-byte header, decode the body, read the chaining bit from
the class byte. -/
def parseUnit (bytes : List Nat) : Option CommandView :=
  match bytes with
  | cla :: ins :: p1 :: p2 :: body =>
    (parseBody body).map fun pr =>
      ⟨cla, ins, p1, p2, pr.1, pr.2.1, pr.2.2, decide (cla &&& 16 ≠ 0)⟩
  | _ => none

/-- Short Le encoding (§6): absent when 0, one byte otherwise, 256 encoded
as `0x00`.  The argument is the already-clamped value (≤ 256). -/
def shortLeBytes (le : Nat) : List Nat := if le = 0 then [] else [le % 256]

/-- Extended Le encoding following an extended Lc (§6): absent when 0,
two bytes otherwise, 65536 encoded as `0x0000`. -/
def longLeBytes (le : Nat) : List Nat :=
  if le = 0 then [] else [le / 256 % 256, le % 256]

/-- Modelled from the spec: the final (or only) short-form unit of a
command (§4.2): header with the caller's class byte, short Lc and payload
when the payload is non-empty, short Le of the clamped expected length. -/
def encodeFinal (cla ins p1 p2 : Nat) (d : List Nat) (le : Nat) : List Nat :=
  cla :: ins :: p1 :: p2 ::
    ((if d.length = 0 then [] else d.length :: d) ++ shortLeBytes (min le 256))

/-- Modelled from the spec: a non-final chained unit (§4.2): the class
byte with the chaining bit (bit 4) set, short Lc, the chunk, empty Le. -/
def encodeChained (cla ins p1 p2 : Nat) (chunk : List Nat) : List Nat :=
  (cla ||| 16) :: ins :: p1 :: p2 :: chunk.length :: chunk

/-- Modelled from the spec: the single extended-form unit (§4.2, §6):
extended Lc (0x00 + 2 bytes big-endian) and payload when the payload is
non-empty, extended Le (3 bytes alone / 2 bytes after an Lc). -/
def encodeExtended (cla ins p1 p2 : Nat) (d : List Nat) (le : Nat) : List Nat :=
  if d.length = 0 then
    cla :: ins :: p1 :: p2 :: 0 :: le / 256 % 256 :: [le % 256]
  else
    cla :: ins :: p1 :: p2 :: 0 :: d.length / 256 :: d.length % 256 ::
      (d ++ longLeBytes le)

/-- Byte length of the final short unit for a remaining payload of `r`
bytes and raw expected length `le` (header, optional Lc+payload, optional
Le). -/
def finalLen (r le : Nat) : Nat :=
  4 + (if r = 0 then 0 else 1 + r) + (if min le 256 = 0 then 0 else 1)

/-- Modelled from the spec: whether the unit requires extended encoding
(§3 invariant): payload over 255 bytes or expected length over 256. -/
def needsExtended (d : List Nat) (le : Nat) : Bool :=
  decide (255 < d.length) || decide (256 < le)

/-- Modelled from the spec: the non-extended serializer with its
`Continuation` (§4.2), driven by the capacities of the successive writers.
Each call either finishes with the final short unit (when the remaining
payload fits a short unit inside the writer's capacity) or emits one
chained unit whose chunk is as large as the 255-byte short-form bound and
the writer's capacity allow (5 bytes of header+Lc overhead), and resumes
with the rest — the shape the fuzz harness observes, one complete unit per
continuation.  `none` means the capacity list was exhausted before the
chain completed. -/
def runChain (cla ins p1 p2 le : Nat) (rem caps : List Nat) :
    Option (List (List Nat)) :=
  match caps with
  | [] => none
  | c :: caps' =>
    if rem.length ≤ 255 ∧ finalLen rem.length le ≤ c then
      some [encodeFinal cla ins p1 p2 rem le]
    else
      let k := min (min 255 (c - 5)) rem.length
      (runChain cla ins p1 p2 le (rem.drop k) caps').map
        (fun us => encodeChained cla ins p1 p2 (rem.take k) :: us)

/-- Serialization error: the pathological class byte (§3, §7), or the
capacity list ran out (the writer never let the command finish). -/
inductive SerializeError where
  | invalidClass
  | insufficientCapacity
  deriving DecidableEq, Repr

/-- Modelled from the spec: `serialize` (§4.2).  Rejects the pathological
class byte `0b1110_1111` before emitting anything; with extended support
it emits one unit (extended iff the payload exceeds 255 bytes or the
expected length exceeds 256), without it it runs the short-form chaining
engine.  On success the result is the list of emitted physical units. -/
def serialize (cmd : LogicalCommand) (extSupported : Bool)
    (caps : List Nat) : Except SerializeError (List (List Nat)) :=
  if cmd.cla = 0xEF then .error .invalidClass
  else if extSupported then
    let u :=
      if needsExtended cmd.data cmd.le then
        encodeExtended cmd.cla cmd.ins cmd.p1 cmd.p2 cmd.data cmd.le
      else encodeFinal cmd.cla cmd.ins cmd.p1 cmd.p2 cmd.data cmd.le
    match caps with
    | [] => .error .insufficientCapacity
    | c :: _ => if u.length ≤ c then .ok [u] else .error .insufficientCapacity
  else
    match runChain cmd.cla cmd.ins cmd.p1 cmd.p2 cmd.le cmd.data caps with
    | some us => .ok us
    | none => .error .insufficientCapacity

/-- Stripping the chaining bit (bit 4) off a class byte. -/
def stripChain (cla : Nat) : Nat := cla &&& 239

/-- Modelled from the spec: the state of `ReassemblyAccumulator<N>`
(§4.4): seeded flag, terminal flag, header fields (class without the
chaining bit), accumulated payload, last seen expected length. -/
structure ReassemblyState where
  started : Bool
  complete : Bool
  cla : Nat
  ins : Nat
  p1 : Nat
  p2 : Nat
  data : List Nat
  le : Nat
  deriving DecidableEq, Repr

/-- The accumulator before the first unit is folded in. -/
def initialState : ReassemblyState := ⟨false, false, 0, 0, 0, 0, [], 0⟩

/-- Modelled from the spec: `extend(view)` (§4.4).  Fails (`none`) after
`Complete`, on a header-field disagreement with the seeded values, or
when the accumulated payload would exceed the capacity `N`; otherwise
appends the view's payload, takes the view's expected length, and becomes
terminal when the view lacks the chaining bit. -/
def extendView (N : Nat) (acc : ReassemblyState) (v : CommandView) :
    Option ReassemblyState :=
  if acc.complete then none
  else if acc.started then
    if stripChain v.cla = acc.cla ∧ v.ins = acc.ins ∧ v.p1 = acc.p1 ∧
        v.p2 = acc.p2 then
      if acc.data.length + v.data.length ≤ N then
        some ⟨true, !v.chained, acc.cla, acc.ins, acc.p1, acc.p2,
          acc.data ++ v.data, v.le⟩
      else none
    else none
  else
    if v.data.length ≤ N then
      some ⟨true, !v.chained, stripChain v.cla, v.ins, v.p1, v.p2, v.data,
        v.le⟩
    else none

/-- Parse every received unit and fold it into an accumulator of capacity
`N` (the receive path of the fuzz harness: `Command::try_from` on the
first buffer, then `extend_from_command_view` on each later one). -/
def reassemble (N : Nat) (units : List (List Nat)) :
    Option ReassemblyState :=
  units.foldlM (fun acc u => (parseUnit u).bind (extendView N acc)) initialState

/-- Bit arithmetic of the chaining bit on a class byte without it. -/
lemma classBits : ∀ cla, cla < 256 → cla &&& 16 = 0 →
    (cla ||| 16) &&& 16 = 16 ∧ (cla ||| 16) &&& 239 = cla ∧
    cla &&& 239 = cla := by decide

/-- A clamped short Le decodes back to itself. -/
lemma decodeShortLe_mod (le : Nat) (h1 : 1 ≤ le) (h2 : le ≤ 256) :
    decodeShortLe (le % 256) = le := by
  unfold decodeShortLe
  split
  · omega
  · omega

/-- An extended Le rebuilt from its two encoded bytes. -/
lemma decodeLongLe_encode (le : Nat) (h1 : 1 ≤ le) (h2 : le ≤ 65536) :
    decodeLongLe (le / 256 % 256) (le % 256) = le := by
  unfold decodeLongLe
  split
  · omega
  · omega

/-- `parseBody` on the empty body. -/
lemma parseBody_nil : parseBody [] = some ([], 0, false) := rfl

/-- `parseBody` on a single byte: a short Le. -/
lemma parseBody_single (b : Nat) :
    parseBody [b] = some ([], decodeShortLe b, false) := rfl

/-- `parseBody` on a bare extended Le (no Lc). -/
lemma parseBody_extLe (l1 l2 : Nat) :
    parseBody [0, l1, l2] = some ([], decodeLongLe l1 l2, true) := rfl

/-- `parseBody` on a short Lc followed by exactly the payload. -/
lemma parseBody_lc_noLe (d : List Nat) (h1 : 1 ≤ d.length) :
    parseBody (d.length :: d) = some (d, 0, false) := by
  unfold parseBody
  rw [if_neg (by simp only [List.length_cons]; omega)]
  rw [if_neg (by simp only [List.length_cons]; omega)]
  rw [if_neg (by simp only [List.headD_cons]; omega)]
  simp only [List.headD_cons, List.drop_one, List.tail_cons]
  simp

/-- `parseBody` on a short Lc, the payload and a 1-byte short Le. -/
lemma parseBody_lc_le (d : List Nat) (b : Nat) (h1 : 1 ≤ d.length) :
    parseBody (d.length :: (d ++ [b])) =
      some (d, decodeShortLe b, false) := by
  unfold parseBody
  rw [if_neg (by simp only [List.length_cons, List.length_append,
    List.length_singleton]; omega)]
  rw [if_neg (by simp only [List.length_cons, List.length_append,
    List.length_singleton]; omega)]
  rw [if_neg (by simp only [List.headD_cons]; omega)]
  simp only [List.headD_cons, List.drop_one, List.tail_cons]
  rw [if_neg (by simp only [List.length_append, List.length_singleton]; omega)]
  rw [List.drop_left, List.take_left]

/-- `parseBody` on an extended Lc followed by exactly the payload. -/
lemma parseBody_extLc_noLe (d : List Nat) (h1 : 1 ≤ d.length) :
    parseBody (0 :: d.length / 256 :: d.length % 256 :: d) =
      some (d, 0, true) := by
  have hL : d.length / 256 * 256 + d.length % 256 = d.length := by omega
  unfold parseBody
  rw [if_neg (by simp only [List.length_cons]; omega)]
  rw [if_neg (by simp only [List.length_cons]; omega)]
  rw [if_pos (by simp only [List.headD_cons])]
  rw [if_neg (by simp only [List.length_cons]; omega)]
  simp only [List.getD_cons_succ, List.getD_cons_zero, List.drop_succ_cons,
    List.drop_zero, hL]
  rw [if_neg (by omega)]
  simp

/-- `parseBody` on an extended Lc, the payload and a 2-byte extended
Le. -/
lemma parseBody_extLc_le (d : List Nat) (e1 e2 : Nat) (h1 : 1 ≤ d.length) :
    parseBody (0 :: d.length / 256 :: d.length % 256 :: (d ++ [e1, e2])) =
      some (d, decodeLongLe e1 e2, true) := by
  have hL : d.length / 256 * 256 + d.length % 256 = d.length := by omega
  unfold parseBody
  rw [if_neg (by simp only [List.length_cons, List.length_append]; omega)]
  rw [if_neg (by simp only [List.length_cons, List.length_append]; omega)]
  rw [if_pos (by simp only [List.headD_cons])]
  rw [if_neg (by simp only [List.length_cons, List.length_append,
    List.length_cons, List.length_nil]; omega)]
  simp only [List.getD_cons_succ, List.getD_cons_zero, List.drop_succ_cons,
    List.drop_zero, hL]
  rw [if_neg (by omega)]
  rw [if_neg (by simp only [List.length_append, List.length_cons,
    List.length_nil]; omega)]
  rw [List.drop_left, List.take_left]

/-- The final short unit parses back to the command's fields with the
expected length clamped to 256 and no chaining bit. -/
lemma parse_encodeFinal (cla ins p1 p2 : Nat) (d : List Nat) (le : Nat)
    (hcla : cla &&& 16 = 0) :
    parseUnit (encodeFinal cla ins p1 p2 d le) =
      some ⟨cla, ins, p1, p2, d, min le 256, false, false⟩ := by
  have hch : decide (cla &&& 16 ≠ 0) = false := by simp [hcla]
  by_cases hd0 : d.length = 0
  · have hd' : d = [] := List.length_eq_zero.mp hd0
    subst hd'
    by_cases hle0 : min le 256 = 0
    · have hb : encodeFinal cla ins p1 p2 [] le = [cla, ins, p1, p2] := by
        simp [encodeFinal, shortLeBytes, hle0]
      rw [hb]
      simp only [parseUnit, parseBody_nil, Option.map_some', hch, hle0]
    · have hb : encodeFinal cla ins p1 p2 [] le =
          [cla, ins, p1, p2, min le 256 % 256] := by
        simp [encodeFinal, shortLeBytes, hle0]
      rw [hb]
      simp only [parseUnit, parseBody_single, Option.map_some', hch,
        decodeShortLe_mod (min le 256) (by omega) (by omega)]
  · by_cases hle0 : min le 256 = 0
    · have hb : encodeFinal cla ins p1 p2 d le =
          cla :: ins :: p1 :: p2 :: (d.length :: d) := by
        simp [encodeFinal, shortLeBytes, hd0, hle0]
      rw [hb]
      simp only [parseUnit]
      rw [parseBody_lc_noLe d (by omega)]
      simp only [Option.map_some', hch, hle0]
    · have hb : encodeFinal cla ins p1 p2 d le =
          cla :: ins :: p1 :: p2 :: (d.length :: (d ++ [min le 256 % 256])) := by
        simp [encodeFinal, shortLeBytes, hd0, hle0]
      rw [hb]
      simp only [parseUnit]
      rw [parseBody_lc_le d (min le 256 % 256) (by omega)]
      simp only [Option.map_some', hch,
        decodeShortLe_mod (min le 256) (by omega) (by omega)]

/-- A chained unit parses back to its chunk, with the chaining bit set,
an empty Le and the short form. -/
lemma parse_encodeChained (cla ins p1 p2 : Nat) (chunk : List Nat)
    (h1 : 1 ≤ chunk.length) (hcla : cla &&& 16 = 0) (hlt : cla < 256) :
    parseUnit (encodeChained cla ins p1 p2 chunk) =
      some ⟨cla ||| 16, ins, p1, p2, chunk, 0, false, true⟩ := by
  have hch : decide ((cla ||| 16) &&& 16 ≠ 0) = true := by
    simp [(classBits cla hlt hcla).1]
  simp only [encodeChained, parseUnit]
  rw [parseBody_lc_noLe chunk h1]
  simp only [Option.map_some', hch]

/-- The extended unit parses back to the command's fields exactly, with
the extended flag and no chaining bit. -/
lemma parse_encodeExtended (cla ins p1 p2 : Nat) (d : List Nat) (le : Nat)
    (hle : le ≤ 65536) (hNeed : 255 < d.length ∨ 256 < le)
    (hcla : cla &&& 16 = 0) :
    parseUnit (encodeExtended cla ins p1 p2 d le) =
      some ⟨cla, ins, p1, p2, d, le, true, false⟩ := by
  have hch : decide (cla &&& 16 ≠ 0) = false := by simp [hcla]
  by_cases hd0 : d.length = 0
  · have hd' : d = [] := List.length_eq_zero.mp hd0
    subst hd'
    have hle1 : 256 < le := by
      rcases hNeed with h | h
      · simp at h
      · exact h
    have hb : encodeExtended cla ins p1 p2 [] le =
        [cla, ins, p1, p2, 0, le / 256 % 256, le % 256] := by
      simp [encodeExtended]
    rw [hb]
    simp only [parseUnit, parseBody_extLe, Option.map_some', hch,
      decodeLongLe_encode le (by omega) hle]
  · by_cases hle0 : le = 0
    · subst hle0
      have hb : encodeExtended cla ins p1 p2 d 0 =
          cla :: ins :: p1 :: p2 ::
            (0 :: d.length / 256 :: d.length % 256 :: d) := by
        simp [encodeExtended, longLeBytes, hd0]
      rw [hb]
      simp only [parseUnit]
      rw [parseBody_extLc_noLe d (by omega)]
      simp only [Option.map_some', hch]
    · have hb : encodeExtended cla ins p1 p2 d le =
          cla :: ins :: p1 :: p2 ::
            (0 :: d.length / 256 :: d.length % 256 ::
              (d ++ [le / 256 % 256, le % 256])) := by
        simp [encodeExtended, longLeBytes, hd0, hle0]
      rw [hb]
      simp only [parseUnit]
      rw [parseBody_extLc_le d (le / 256 % 256) (le % 256) (by omega)]
      simp only [Option.map_some', hch,
        decodeLongLe_encode le (by omega) hle]

/-- Folding units into an accumulator, starting from an arbitrary state
(the receive loop of §4.4). -/
def foldUnits (N : Nat) (acc : ReassemblyState) (units : List (List Nat)) :
    Option ReassemblyState :=
  units.foldlM (fun a u => (parseUnit u).bind (extendView N a)) acc

lemma reassemble_eq_foldUnits (N : Nat) (units : List (List Nat)) :
    reassemble N units = foldUnits N initialState units := rfl

lemma foldUnits_nil (N : Nat) (acc : ReassemblyState) :
    foldUnits N acc [] = some acc := rfl

lemma foldUnits_cons (N : Nat) (acc : ReassemblyState) (u : List Nat)
    (us : List (List Nat)) :
    foldUnits N acc (u :: us) =
      ((parseUnit u).bind (extendView N acc)).bind
        (fun a => foldUnits N a us) := by
  simp [foldUnits, List.foldlM_cons, Option.bind_eq_bind]

/-- One `extend` step under the conditions the chain maintains: not yet
terminal, agreeing headers, enough capacity.  Works uniformly whether or
not the accumulator is already seeded (an unseeded accumulator has no
payload yet). -/
lemma extendView_eq (N : Nat) (acc : ReassemblyState) (v : CommandView)
    (cla : Nat)
    (hcomp : acc.complete = false)
    (hstrip : stripChain v.cla = cla)
    (hhdr : acc.started = true →
      acc.cla = cla ∧ acc.ins = v.ins ∧ acc.p1 = v.p1 ∧ acc.p2 = v.p2)
    (hst : acc.started = false → acc.data = [])
    (hcap : acc.data.length + v.data.length ≤ N) :
    extendView N acc v =
      some ⟨true, !v.chained, cla, v.ins, v.p1, v.p2,
        acc.data ++ v.data, v.le⟩ := by
  unfold extendView
  simp only [hcomp, Bool.false_eq_true, if_false]
  by_cases hstarted : acc.started = true
  · obtain ⟨h1, h2, h3, h4⟩ := hhdr hstarted
    simp only [hstarted, if_true]
    rw [if_pos (by rw [hstrip, h1, h2, h3, h4]; exact ⟨rfl, rfl, rfl, rfl⟩)]
    rw [if_pos hcap]
    rw [h1, h2, h3, h4]
  · have hs' : acc.started = false := by
      cases h : acc.started
      · rfl
      · exact absurd h hstarted
    have hd := hst hs'
    rw [hs']
    simp only [Bool.false_eq_true, if_false]
    rw [if_pos (show v.data.length ≤ N by rw [hd] at hcap; simpa using hcap)]
    rw [hstrip, hd]
    simp

/-- Without the final short unit fitting, a capacity of at least 6 forces
a non-empty remaining payload (an empty remainder always fits). -/
lemma chain_progress (r le c : Nat)
    (hfin : ¬(r ≤ 255 ∧ finalLen r le ≤ c)) (hc : 6 ≤ c) : 1 ≤ r := by
  by_contra h
  have hr : r = 0 := by omega
  subst hr
  exact hfin ⟨by omega, by unfold finalLen; split <;> split <;> omega⟩

/-- The central invariant of the chaining engine: folding every unit a
successful run emits into any compatible accumulator yields the terminal
state holding the already-accumulated bytes followed by the remaining
payload, with the expected length clamped to 256. -/
lemma runChain_fold (N cla ins p1 p2 le : Nat) (hlt : cla < 256)
    (hb : cla &&& 16 = 0) :
    ∀ (caps rem : List Nat) (units : List (List Nat))
      (acc : ReassemblyState),
    (∀ c ∈ caps, 6 ≤ c) →
    runChain cla ins p1 p2 le rem caps = some units →
    acc.complete = false →
    (acc.started = true →
      acc.cla = cla ∧ acc.ins = ins ∧ acc.p1 = p1 ∧ acc.p2 = p2) →
    (acc.started = false → acc.data = []) →
    acc.data.length + rem.length ≤ N →
    foldUnits N acc units =
      some ⟨true, true, cla, ins, p1, p2, acc.data ++ rem, min le 256⟩ := by
  intro caps
  induction caps with
  | nil =>
    intro rem units acc hcaps hrun
    exact absurd hrun (by simp [runChain])
  | cons c caps' ih =>
    intro rem units acc hcaps hrun hcomp hhdr hst hcap
    have hc6 : 6 ≤ c := hcaps c (by simp)
    have hcaps' : ∀ x ∈ caps', 6 ≤ x := fun x hx => hcaps x (by simp [hx])
    simp only [runChain] at hrun
    by_cases hfin : rem.length ≤ 255 ∧ finalLen rem.length le ≤ c
    · rw [if_pos hfin] at hrun
      have hu : units = [encodeFinal cla ins p1 p2 rem le] :=
        (Option.some.injEq _ _ ▸ hrun).symm
      subst hu
      rw [foldUnits_cons]
      rw [parse_encodeFinal cla ins p1 p2 rem le hb]
      simp only [Option.some_bind]
      rw [extendView_eq N acc
        ⟨cla, ins, p1, p2, rem, min le 256, false, false⟩ cla hcomp
        (by simpa [stripChain] using (classBits cla hlt hb).2.2)
        (fun h => hhdr h) hst (by simpa using hcap)]
      simp [foldUnits_nil]
    · rw [if_neg hfin] at hrun
      have hr1 : 1 ≤ rem.length := chain_progress _ le _ hfin hc6
      set k := min (min 255 (c - 5)) rem.length with hk
      have hk1 : 1 ≤ k := by omega
      have hkr : k ≤ rem.length := by omega
      rw [Option.map_eq_some'] at hrun
      obtain ⟨us', hrun', hu⟩ := hrun
      subst hu
      have htk : (rem.take k).length = k := by
        rw [List.length_take]; omega
      rw [foldUnits_cons]
      rw [parse_encodeChained cla ins p1 p2 (rem.take k)
        (by rw [htk]; omega) hb hlt]
      simp only [Option.some_bind]
      rw [extendView_eq N acc
        ⟨cla ||| 16, ins, p1, p2, rem.take k, 0, false, true⟩ cla hcomp
        (by simpa [stripChain] using (classBits cla hlt hb).2.1)
        (fun h => hhdr h) hst (by simp only [htk]; omega)]
      simp only [Option.some_bind, Bool.not_true]
      have := ih (rem.drop k) us'
        ⟨true, false, cla, ins, p1, p2, acc.data ++ rem.take k, 0⟩
        hcaps' hrun' rfl (fun _ => ⟨rfl, rfl, rfl, rfl⟩) (by simp)
        (by simp only [List.length_append, htk, List.length_drop]; omega)
      rw [this]
      simp only [List.append_assoc, List.take_append_drop]

/-- With every writer capacity at least 6, one capacity per payload byte
plus one final capacity always suffices for the chain to finish. -/
lemma runChain_total (cla ins p1 p2 le : Nat) :
    ∀ (caps rem : List Nat), (∀ c ∈ caps, 6 ≤ c) →
    rem.length < caps.length →
    ∃ units, runChain cla ins p1 p2 le rem caps = some units := by
  intro caps
  induction caps with
  | nil => intro rem _ h; simp at h
  | cons c caps' ih =>
    intro rem hcaps hlen
    have hc6 : 6 ≤ c := hcaps c (by simp)
    simp only [runChain]
    by_cases hfin : rem.length ≤ 255 ∧ finalLen rem.length le ≤ c
    · rw [if_pos hfin]; exact ⟨_, rfl⟩
    · rw [if_neg hfin]
      have hr1 := chain_progress _ le _ hfin hc6
      set k := min (min 255 (c - 5)) rem.length with hk
      have hk1 : 1 ≤ k := by omega
      obtain ⟨us, hus⟩ := ih (rem.drop k)
        (fun x hx => hcaps x (by simp [hx]))
        (by simp only [List.length_drop, List.length_cons] at hlen ⊢; omega)
      rw [hus]
      exact ⟨_, rfl⟩

/-- The units a successful non-extended run emits: some chained units
(each parsing to a short view with at most 255 payload bytes and the
chaining bit) followed by exactly one final unit (short, no chaining
bit). -/
lemma runChain_shape (cla ins p1 p2 le : Nat) (hlt : cla < 256)
    (hb : cla &&& 16 = 0) :
    ∀ (caps rem : List Nat) (units : List (List Nat)),
    (∀ c ∈ caps, 6 ≤ c) →
    runChain cla ins p1 p2 le rem caps = some units →
    ∃ us u, units = us ++ [u] ∧
      (∀ w ∈ us, ∃ v, parseUnit w = some v ∧ v.chained = true ∧
        v.data.length ≤ 255 ∧ v.extended = false) ∧
      (∃ v, parseUnit u = some v ∧ v.chained = false ∧
        v.data.length ≤ 255 ∧ v.extended = false) := by
  intro caps
  induction caps with
  | nil =>
    intro rem units hcaps hrun
    exact absurd hrun (by simp [runChain])
  | cons c caps' ih =>
    intro rem units hcaps hrun
    have hc6 : 6 ≤ c := hcaps c (by simp)
    simp only [runChain] at hrun
    by_cases hfin : rem.length ≤ 255 ∧ finalLen rem.length le ≤ c
    · rw [if_pos hfin] at hrun
      have hu : units = [encodeFinal cla ins p1 p2 rem le] :=
        (Option.some.inj hrun).symm
      subst hu
      refine ⟨[], encodeFinal cla ins p1 p2 rem le, by simp, by simp, ?_⟩
      exact ⟨_, parse_encodeFinal cla ins p1 p2 rem le hb, rfl,
        by show rem.length ≤ 255; exact hfin.1, rfl⟩
    · rw [if_neg hfin] at hrun
      have hr1 := chain_progress _ le _ hfin hc6
      set k := min (min 255 (c - 5)) rem.length with hk
      have hk1 : 1 ≤ k := by omega
      have htk : (rem.take k).length = k := by rw [List.length_take]; omega
      rw [Option.map_eq_some'] at hrun
      obtain ⟨us', hrun', hu⟩ := hrun
      subst hu
      obtain ⟨us2, u2, hsplit, hall, hlast⟩ :=
        ih (rem.drop k) us' (fun x hx => hcaps x (by simp [hx])) hrun'
      refine ⟨encodeChained cla ins p1 p2 (rem.take k) :: us2, u2,
        by simp [hsplit], ?_, hlast⟩
      intro w hw
      rcases List.mem_cons.mp hw with h | h
      · subst h
        exact ⟨_, parse_encodeChained cla ins p1 p2 (rem.take k)
          (by rw [htk]; omega) hb hlt, rfl,
          by show (rem.take k).length ≤ 255; rw [htk]; omega, rfl⟩
      · exact hall w h

/-- The byte length of the final short unit is `finalLen`. -/
lemma encodeFinal_length (cla ins p1 p2 : Nat) (d : List Nat) (le : Nat) :
    (encodeFinal cla ins p1 p2 d le).length = finalLen d.length le := by
  unfold encodeFinal finalLen shortLeBytes
  by_cases hd0 : d.length = 0 <;> by_cases hle0 : min le 256 = 0 <;>
    simp [hd0, hle0] <;> omega

/-- A successful non-extended `serialize` is exactly a successful
`runChain` on the payload. -/
lemma serialize_false_runChain (cla ins p1 p2 : Nat) (d : List Nat)
    (le : Nat) (caps : List Nat) (units : List (List Nat))
    (hcla : cla ≠ 0xEF)
    (hser : serialize ⟨cla, ins, p1, p2, d, le⟩ false caps = .ok units) :
    runChain cla ins p1 p2 le d caps = some units := by
  unfold serialize at hser
  rw [if_neg (by simpa using hcla)] at hser
  simp only [Bool.false_eq_true, if_false] at hser
  cases hmatch : runChain cla ins p1 p2 le d caps with
  | some us =>
    rw [hmatch] at hser
    simpa using hser
  | none =>
    rw [hmatch] at hser
    exact absurd hser (by simp)

/-- C4: serialization rejects class byte `0b1110_1111` with
`InvalidClass` for every instruction, parameters, payload, expected
length, support flag and writer; nothing is emitted (an error run
produces no units). -/
theorem pathological_class_rejected (ins p1 p2 : Nat) (d : List Nat)
    (le : Nat) (extSupported : Bool) (caps : List Nat) :
    serialize ⟨0xEF, ins, p1, p2, d, le⟩ extSupported caps =
      .error .invalidClass := by
  unfold serialize
  simp

/-- C3: a payload of at most 255 bytes serialized without extended
support into a writer at least as large as the encoded unit yields
exactly that one unit, and parsing it recovers every logical field with
the expected length clamped to 256. -/
theorem short_roundtrip (cla ins p1 p2 : Nat) (d : List Nat) (le : Nat)
    (c : Nat) (caps : List Nat)
    (hlt : cla < 256) (hb : cla &&& 16 = 0) (hcla : cla ≠ 0xEF)
    (hd : d.length ≤ 255)
    (hc : (encodeFinal cla ins p1 p2 d le).length ≤ c) :
    serialize ⟨cla, ins, p1, p2, d, le⟩ false (c :: caps) =
      .ok [encodeFinal cla ins p1 p2 d le] ∧
    parseUnit (encodeFinal cla ins p1 p2 d le) =
      some ⟨cla, ins, p1, p2, d, min le 256, false, false⟩ := by
  constructor
  · unfold serialize
    rw [if_neg (by simpa using hcla)]
    simp only [Bool.false_eq_true, if_false]
    have hrun : runChain cla ins p1 p2 le d (c :: caps) =
        some [encodeFinal cla ins p1 p2 d le] := by
      simp only [runChain]
      rw [if_pos ⟨hd, by rw [← encodeFinal_length]; exact hc⟩]
    rw [hrun]
  · exact parse_encodeFinal cla ins p1 p2 d le hb

/-- C3 witness: a 3-byte command with `le = 300` round-trips through one
unit with the expected length clamped to 256. -/
theorem short_roundtrip_witness :
    serialize ⟨0, 0xB0, 1, 2, [10, 20, 30], 300⟩ false [64] =
      .ok [encodeFinal 0 0xB0 1 2 [10, 20, 30] 300] ∧
    parseUnit (encodeFinal 0 0xB0 1 2 [10, 20, 30] 300) =
      some ⟨0, 0xB0, 1, 2, [10, 20, 30], min 300 256, false, false⟩ :=
  short_roundtrip 0 0xB0 1 2 [10, 20, 30] 300 64 [] (by decide) (by decide)
    (by decide) (by decide) (by decide)

/-- C2: with extended support and a sufficient writer, serialization
completes in one call with one unit, and parsing it recovers every
logical field with no clamping; the unit is extended exactly when the
payload exceeds 255 bytes or the expected length exceeds 256. -/
theorem extended_roundtrip (cla ins p1 p2 : Nat) (d : List Nat) (le : Nat)
    (c : Nat) (caps : List Nat)
    (hlt : cla < 256) (hb : cla &&& 16 = 0) (hcla : cla ≠ 0xEF)
    (hd : d.length ≤ 65535) (hle : le ≤ 65536)
    (hc : (if needsExtended d le then encodeExtended cla ins p1 p2 d le
           else encodeFinal cla ins p1 p2 d le).length ≤ c) :
    ∃ u v, serialize ⟨cla, ins, p1, p2, d, le⟩ true (c :: caps) = .ok [u] ∧
      parseUnit u = some v ∧
      v.cla = cla ∧ v.ins = ins ∧ v.p1 = p1 ∧ v.p2 = p2 ∧
      v.data = d ∧ v.le = le ∧ v.extended = needsExtended d le := by
  by_cases hext : needsExtended d le = true
  · rw [if_pos hext] at hc
    refine ⟨encodeExtended cla ins p1 p2 d le,
      ⟨cla, ins, p1, p2, d, le, true, false⟩, ?_, ?_, rfl, rfl, rfl, rfl,
      rfl, rfl, by rw [hext]⟩
    · unfold serialize
      rw [if_neg (by simpa using hcla)]
      simp only [if_true, hext]
      rw [if_pos hc]
    · refine parse_encodeExtended cla ins p1 p2 d le hle ?_ hb
      simpa [needsExtended] using hext
  · have hext' : needsExtended d le = false := by
      cases h : needsExtended d le
      · rfl
      · exact absurd h hext
    have hrange : d.length ≤ 255 ∧ le ≤ 256 := by
      have := hext'
      simp [needsExtended] at this
      omega
    rw [if_neg hext] at hc
    refine ⟨encodeFinal cla ins p1 p2 d le,
      ⟨cla, ins, p1, p2, d, min le 256, false, false⟩, ?_, ?_, rfl, rfl,
      rfl, rfl, rfl, by show min le 256 = le; omega, by rw [hext']⟩
    · unfold serialize
      rw [if_neg (by simpa using hcla)]
      simp only [if_true, hext']
      simp only [Bool.false_eq_true, if_false]
      rw [if_pos hc]
    · exact parse_encodeFinal cla ins p1 p2 d le hb

/-- C2 witness: a 300-byte payload with `le = 65536` round-trips through
one extended unit with no clamping. -/
theorem extended_roundtrip_witness :
    ∃ u v, serialize ⟨0, 1, 2, 3, List.replicate 300 9, 65536⟩ true
        [4096] = .ok [u] ∧
      parseUnit u = some v ∧
      v.cla = 0 ∧ v.ins = 1 ∧ v.p1 = 2 ∧ v.p2 = 3 ∧
      v.data = List.replicate 300 9 ∧ v.le = 65536 ∧
      v.extended = needsExtended (List.replicate 300 9) 65536 :=
  extended_roundtrip 0 1 2 3 (List.replicate 300 9) 65536 4096 []
    (by decide) (by decide) (by decide) (by simp) (by decide) (by decide)

/-- C1: a payload longer than 255 bytes, serialized without extended
support across any capacity sequence that lets each call make progress,
reassembles through the accumulator to the original command (payload
identical, expected length clamped to `min le 256`); the units are some
chained short ones (payload at most 255 bytes, `extended() = false`,
chaining bit set) followed by exactly one final unit without the chaining
bit.  The reassembled state on the right-hand side does not mention the
capacity sequence, so the result is the same for every capacity sequence
that serializes successfully. -/
theorem chaining_roundtrip (cla ins p1 p2 : Nat) (d : List Nat)
    (le N : Nat) (caps : List Nat) (units : List (List Nat))
    (hlt : cla < 256) (hb : cla &&& 16 = 0) (hcla : cla ≠ 0xEF)
    (hlen : 255 < d.length)
    (hcaps : ∀ c ∈ caps, 6 ≤ c)
    (hser : serialize ⟨cla, ins, p1, p2, d, le⟩ false caps = .ok units)
    (hN : d.length ≤ N) :
    reassemble N units =
      some ⟨true, true, cla, ins, p1, p2, d, min le 256⟩ ∧
    ∃ us u, units = us ++ [u] ∧
      (∀ w ∈ us, ∃ v, parseUnit w = some v ∧ v.chained = true ∧
        v.data.length ≤ 255 ∧ v.extended = false) ∧
      (∃ v, parseUnit u = some v ∧ v.chained = false ∧
        v.data.length ≤ 255 ∧ v.extended = false) := by
  have hrun := serialize_false_runChain cla ins p1 p2 d le caps units
    hcla hser
  constructor
  · rw [reassemble_eq_foldUnits]
    have := runChain_fold N cla ins p1 p2 le hlt hb caps d units
      initialState hcaps hrun rfl
      (by intro h; simp [initialState] at h)
      (fun _ => rfl)
      (by simpa [initialState] using hN)
    simpa [initialState] using this
  · exact runChain_shape cla ins p1 p2 le hlt hb caps d units hcaps hrun

/-- C1 witness: 300 payload bytes across three writers of capacity 128
serialize to a chain whose reassembly recovers the payload with
`le = 500` clamped to 256. -/
theorem chaining_roundtrip_witness :
    serialize ⟨0, 164, 4, 0, List.replicate 300 7, 500⟩ false
        [128, 128, 128] =
      .ok ((runChain 0 164 4 0 500 (List.replicate 300 7)
        [128, 128, 128]).getD []) ∧
    reassemble 300 ((runChain 0 164 4 0 500 (List.replicate 300 7)
        [128, 128, 128]).getD []) =
      some ⟨true, true, 0, 164, 4, 0, List.replicate 300 7, min 500 256⟩ := by
  have hser : serialize ⟨0, 164, 4, 0, List.replicate 300 7, 500⟩ false
      [128, 128, 128] =
      .ok ((runChain 0 164 4 0 500 (List.replicate 300 7)
        [128, 128, 128]).getD []) := by decide
  have h := chaining_roundtrip 0 164 4 0 (List.replicate 300 7) 500 300
    [128, 128, 128]
    ((runChain 0 164 4 0 500 (List.replicate 300 7) [128, 128, 128]).getD [])
    (by decide) (by decide) (by decide) (by simp) (by decide) hser (by simp)
  exact ⟨hser, h.1⟩

/-- C5: without extended support, an expected length above 256 is no
error — with enough writer calls serialization succeeds — and the
expected length recovered from the emitted units is exactly 256. -/
theorem le_clamped_to_256 (cla ins p1 p2 : Nat) (d : List Nat)
    (le N : Nat) (caps : List Nat)
    (hlt : cla < 256) (hb : cla &&& 16 = 0) (hcla : cla ≠ 0xEF)
    (hle : 256 < le)
    (hcaps : ∀ c ∈ caps, 6 ≤ c) (hlong : d.length < caps.length)
    (hN : d.length ≤ N) :
    ∃ units, serialize ⟨cla, ins, p1, p2, d, le⟩ false caps = .ok units ∧
      ∃ res, reassemble N units = some res ∧ res.le = 256 := by
  obtain ⟨units, hrun⟩ := runChain_total cla ins p1 p2 le caps d hcaps hlong
  refine ⟨units, ?_, ?_⟩
  · unfold serialize
    rw [if_neg (by simpa using hcla)]
    simp only [Bool.false_eq_true, if_false]
    rw [hrun]
  · refine ⟨⟨true, true, cla, ins, p1, p2, d, min le 256⟩, ?_,
      by show min le 256 = 256; omega⟩
    rw [reassemble_eq_foldUnits]
    have := runChain_fold N cla ins p1 p2 le hlt hb caps d units
      initialState hcaps hrun rfl
      (by intro h; simp [initialState] at h)
      (fun _ => rfl)
      (by simpa [initialState] using hN)
    simpa [initialState] using this

/-- C5 witness: `le = 1000` serializes fine without extended support and
comes back as 256. -/
theorem le_clamped_to_256_witness :
    ∃ units, serialize ⟨0, 1, 2, 3, [9, 8, 7], 1000⟩ false
        [64, 64, 64, 64] = .ok units ∧
      ∃ res, reassemble 100 units = some res ∧ res.le = 256 :=
  le_clamped_to_256 0 1 2 3 [9, 8, 7] 1000 100 [64, 64, 64, 64]
    (by decide) (by decide) (by decide) (by decide) (by decide) (by decide)
    (by decide)

end Iso7816
